import Mathlib

/-!
Verification of the Monument composition-search engine (kneasle/ringing-monorepo).

This file gives a shallow embedding, in Lean 4, of the parts of the code that the
claims C1..C10 are about:

* the best-first prefix search (src/search/src/lib.rs, src/search/src/frontier.rs);
* the graph assembly, falseness wiring and predecessor wiring
  (src/monument/lib/src/graph/mod.rs);
* the optimisation fixed-point loop and the Size partial order
  (src/monument/lib/src/graph/mod.rs);
* lead counting for composition reconstruction
  (src/monument/lib/src/composition.rs, src/monument/lib/src/lib.rs).

Machine integers (usize, u16) are embedded as Nat; saturating subtraction is Nat
truncated subtraction; fallible operations (assert!, panicking division) are embedded
as Option- or outcome-valued functions.  f32 scores (ordered_float::OrderedFloat<f32>)
are embedded as rationals; all concrete scores used in examples below are small dyadic
values on which f32 arithmetic is exact, so the rational model agrees with the source.
-/

/-! ## Best-first search (src/search/src/lib.rs, src/search/src/frontier.rs)

The search runs on a "lowered" graph.  The lowered graph structure itself lives in
src/search/src/graph.rs, which is not part of this snapshot, so the node type below is
modelled from the spec and from the uses of its fields in search_lowered: each node
carries its successor list, its falseness bitset over all nodes, its score, its length
and an optional end label. -/

/-- Index of a node in the lowered search graph (NodeIdx in the source). -/
abbrev NodeIdx := Nat

/-- Index of a link in the layout (monument_graph::layout::LinkIdx). -/
abbrev LinkIdx := Nat

/-- Modelled from the spec: a node of the lowered search graph (src/search/src/graph.rs
is missing from this snapshot).  Field names and types follow their uses in
search_lowered: node.succs, node.falseness, node.score, node.length, node.end_label. -/
structure LNode where
  succs : List (LinkIdx × NodeIdx)
  falseness : List Bool
  score : ℚ
  length : Nat
  end_label : Option String
  deriving DecidableEq

/-- Modelled from the spec: the lowered search graph, with its nodes and its
start list (pairs of node index and start label), as used by search_lowered. -/
structure LGraph where
  nodes : List LNode
  starts : List (NodeIdx × String)
  deriving DecidableEq

/-- Modelled from the spec: the fields of monument_graph::Data read by search_lowered
(the crate root defining Data is missing from this snapshot).  The field access
data.len_range.end in the source shows len_range is a half-open Range<usize>; the
inclusive length_range of the spec [min, max] is represented as min..(max+1). -/
structure SearchData where
  len_range_start : Nat
  len_range_end : Nat
  num_comps : Nat
  queue_limit : Nat
  deriving DecidableEq

/-- The emission test of search_lowered: data.len_range.contains(&length), where
Range<usize>::contains means start <= length < end. -/
def len_range_contains (d : SearchData) (l : Nat) : Bool :=
  decide (d.len_range_start ≤ l) && decide (l < d.len_range_end)

/-- The successor-pruning test of search_lowered: length >= data.len_range.end
makes the extended prefix be skipped. -/
def too_long (d : SearchData) (l : Nat) : Bool :=
  decide (d.len_range_end ≤ l)

/-- A route through the composition graph, stored as a reverse linked list
(CompPath in the source). -/
inductive CompPath where
  | start (idx : Nat)
  | cons (parent : CompPath) (link : LinkIdx)
  deriving DecidableEq

/-- CompPath::flatten: recursively flatten the path, returning the start index and
the list of link indices in forward order. -/
def CompPath.flatten : CompPath → Nat × List LinkIdx
  | .start i => (i, [])
  | .cons p l => ((CompPath.flatten p).1, (CompPath.flatten p).2 ++ [l])

/-- A completed composition as returned by search_lowered (Comp in the source). -/
structure Comp where
  start_idx : Nat
  links : List LinkIdx
  end_label : String
  length : Nat
  score : ℚ
  avg_score : ℚ
  deriving DecidableEq

/-- A prefix of a composition on the search frontier (CompPrefix in the source;
renamed here).  Ordered by avg_score alone, exactly as the source Ord impl. -/
structure CompBranch where
  path : CompPath
  node_idx : NodeIdx
  unreachable_nodes : List Bool
  score : ℚ
  length : Nat
  avg_score : ℚ
  deriving DecidableEq

/-- CompPrefix::new: avg_score is score / length (score / length as f32 in the
source; every reachable call has length > 0). -/
def CompBranch.mk_new (path : CompPath) (node_idx : NodeIdx)
    (unreachable_nodes : List Bool) (score : ℚ) (length : Nat) : CompBranch :=
  ⟨path, node_idx, unreachable_nodes, score, length, score / (length : ℚ)⟩

/-- BinaryHeap::pop on the BestFirst frontier: remove and return a node of maximal
avg_score.  the Rust BinaryHeap does not specify which of several tied maxima is
returned; this model deterministically returns the earliest maximal element. -/
def pop_max : List CompBranch → Option (CompBranch × List CompBranch)
  | [] => none
  | x :: xs =>
    match pop_max xs with
    | none => some (x, [])
    | some (m, rest) =>
      if x.avg_score < m.avg_score then some (m, x :: rest) else some (x, xs)

/-- BitVec::or of two falseness bitsets (the source bitsets always have equal
length, the number of nodes). -/
def bv_or (a b : List Bool) : List Bool := List.zipWith or a b

/-- BitVec::get(idx).unwrap(): read one bit (the source index is always in bounds). -/
def bv_get (a : List Bool) (i : Nat) : Bool := a.getD i false

/-- The descending comparison used by the sort_by(|a, b| b.cmp(a)) in BestFirst::truncate:
CompPrefix Ord compares avg_score only. -/
def branch_ge (a b : CompBranch) : Prop := b.avg_score ≤ a.avg_score

instance : DecidableRel branch_ge :=
  fun a b => inferInstanceAs (Decidable (b.avg_score ≤ a.avg_score))

instance : IsTotal CompBranch branch_ge :=
  ⟨fun a b => le_total b.avg_score a.avg_score⟩

instance : IsTrans CompBranch branch_ge :=
  ⟨fun _ _ _ hab hbc => le_trans hbc hab⟩

/-- The descending sort performed inside BestFirst::truncate (highest score first). -/
def sort_desc (l : List CompBranch) : List CompBranch :=
  List.insertionSort branch_ge l

/-- BestFirst::truncate(len): sort highest score first, then drain everything past
index len (a no-op when len >= length). -/
def frontier_truncate (len : Nat) (l : List CompBranch) : List CompBranch :=
  (sort_desc l).take len

/-- The successor expansion loop of search_lowered: for each successor link, add the
length and score of the successor, skip it if the new length reaches len_range.end or if
the successor is unreachable, otherwise push the extended prefix. -/
def expand_succs (g : LGraph) (d : SearchData) (br : CompBranch)
    (succs : List (LinkIdx × NodeIdx)) : List CompBranch :=
  succs.filterMap (fun p =>
    match g.nodes[p.2]? with
    | none => none
    | some succ_node =>
      let length := br.length + succ_node.length
      let score := br.score + succ_node.score
      if too_long d length then none
      else if bv_get br.unreachable_nodes p.2 then none
      else some (CompBranch.mk_new (.cons br.path p.1) p.2
        (bv_or br.unreachable_nodes succ_node.falseness) score length))

/-- The main loop of search_lowered, with an explicit fuel bound (the Rust loop runs
until the frontier empties or num_comps is reached).  Besides the emitted comps it
records, for each iteration, the frontier length at the start of the iteration and
whether the iteration expanded a node (true) or handled an end node (false).
Queue truncation happens only at the end of expansion iterations: the end-node branch
reaches its continue before the truncation check. -/
def search_loop (g : LGraph) (d : SearchData) :
    Nat → List CompBranch → List Comp → List (Nat × Bool) →
    List Comp × List (Nat × Bool)
  | 0, _, comps, trace => (comps, trace)
  | fuel + 1, frontier, comps, trace =>
    match pop_max frontier with
    | none => (comps, trace)
    | some (br, rest) =>
      match g.nodes[br.node_idx]? with
      | none => (comps, trace)
      | some node =>
        match node.end_label with
        | some lbl =>
          if len_range_contains d br.length then
            let comps1 := comps ++
              [⟨br.path.flatten.1, br.path.flatten.2, lbl, br.length, br.score,
                br.avg_score⟩]
            if comps1.length = d.num_comps then (comps1, trace ++ [(frontier.length, false)])
            else search_loop g d fuel rest comps1 (trace ++ [(frontier.length, false)])
          else search_loop g d fuel rest comps (trace ++ [(frontier.length, false)])
        | none =>
          let frontier1 := rest ++ expand_succs g d br node.succs
          let frontier2 :=
            if d.queue_limit ≤ frontier1.length
            then frontier_truncate (d.queue_limit / 2) frontier1
            else frontier1
          search_loop g d fuel frontier2 comps (trace ++ [(frontier.length, true)])

/-- The initial frontier of search_lowered: one CompPrefix per start, carrying the
falseness, score and length of the start node. -/
def init_frontier (g : LGraph) : List CompBranch :=
  g.starts.enum.filterMap (fun p =>
    (g.nodes[p.2.1]?).map (fun node =>
      CompBranch.mk_new (.start p.1) p.2.1 node.falseness node.score node.length))

/-- search_lowered: run the loop from the initial frontier; result is the list of
emitted compositions in emission order. -/
def search_lowered (g : LGraph) (d : SearchData) (fuel : Nat) : List Comp :=
  (search_loop g d fuel (init_frontier g) [] []).1

/-- The per-iteration trace of the same run (frontier length at iteration start,
and whether the iteration was an expansion). -/
def search_trace (g : LGraph) (d : SearchData) (fuel : Nat) : List (Nat × Bool) :=
  (search_loop g d fuel (init_frontier g) [] []).2

/-! ## Lead counting (src/monument/lib/src/composition.rs and
src/monument/lib/src/lib.rs, identical copies of num_leads_covered) -/

/-- Modelled from the spec: crate::utils::div_rounding_up is not part of this
snapshot; the spec defines the quantity as the ceiling of the division, which for a
positive divisor is (a + b - 1) / b in Nat arithmetic. -/
def div_rounding_up (a b : Nat) : Nat := (a + b - 1) / b

/-- num_leads_covered: 0-length chunks are rejected by an assert; the distance to the
end of the first lead is lead_len - start_sub_lead_idx (usize subtraction); the rows
after the first lead use saturating_sub (Nat truncated subtraction); one lead is added
for the first lead. -/
def num_leads_covered (lead_len start_sub_lead_idx length : Nat) : Nat :=
  div_rounding_up (length - (lead_len - start_sub_lead_idx)) lead_len + 1

/-- Modelled from the spec: div_rounding_up with its panic behaviour made explicit.
Any Rust implementation of the specified ceiling ⌈a / lead_len⌉ divides by its second
argument, and usize division by zero panics, so the checked version is none there. -/
def div_rounding_up_checked (a b : Nat) : Option Nat :=
  if b = 0 then none else some ((a + b - 1) / b)

/-- num_leads_covered with its panics made explicit: the assert_ne!(length, 0) fires
on zero length; lead_len - start_sub_lead_idx is a usize subtraction, which panics on
underflow; the division inside div_rounding_up panics on a zero divisor. -/
def num_leads_covered_checked (lead_len start_sub_lead_idx length : Nat) : Option Nat :=
  if length = 0 then none
  else if lead_len < start_sub_lead_idx then none
  else
    (div_rounding_up_checked (length - (lead_len - start_sub_lead_idx)) lead_len).map
      (fun q => q + 1)

/-! ## Stroke consistency check in Graph::from_layout
(src/monument/lib/src/graph/mod.rs) -/

/-- A stroke (bellframe::Stroke, external): handstroke or backstroke. -/
inductive Stroke where
  | hand
  | back
  deriving DecidableEq

/-- StrokeSet (src/monument/lib/src/music.rs). -/
inductive StrokeSet where
  | hand
  | back
  | both
  deriving DecidableEq

/-- The stroke-relevant fragment of a music type: Graph::from_layout only reads
ty.stroke_set() from each music type when deciding stroke dependence. -/
structure MusicTypeS where
  stroke_set : StrokeSet
  deriving DecidableEq

/-- Graph::from_layout: true if any of the music_types care about stroke, i.e. has a
stroke set other than Both. -/
def dependence_on_stroke (music_types : List MusicTypeS) : Bool :=
  music_types.any (fun ty => ty.stroke_set ≠ StrokeSet.both)

/-- Outcome of the chunk-building stage of Graph::from_layout with respect to stroke
consistency.  The source uses assert!, so a violation is a panic; the
Error::InconsistentStroke variant is declared in the error taxonomy
(src/monument/lib/src/lib.rs) but the build path in src never constructs it. -/
inductive BuildOutcome where
  | ok
  | panicked
  | errored_inconsistent_stroke
  deriving DecidableEq

/-- The per-chunk assertion condition in Graph::from_layout: when stroke-dependent
music exists, the chunk must have even per-part length or be an end chunk. -/
def stroke_check_chunk (dep : Bool) (per_part_length : Nat) (is_end : Bool) : Bool :=
  !dep || (decide (per_part_length % 2 = 0) || is_end)

/-- The stroke-consistency stage of Graph::from_layout over all expanded chunk ranges,
each given by its per-part length and whether it is an end: the build panics (assert
failure) as soon as any chunk violates the condition. -/
def from_layout_stroke_check (music_types : List MusicTypeS)
    (ranges : List (Nat × Bool)) : BuildOutcome :=
  if ranges.all (fun r => stroke_check_chunk (dependence_on_stroke music_types) r.1 r.2)
  then BuildOutcome.ok
  else BuildOutcome.panicked

/-! ## Chunk graph assembly (src/monument/lib/src/graph/mod.rs)

The layout, chunk-range and falseness-table modules (crate::layout, chunk_range,
graph::falseness) are not part of this snapshot, so their types appear here as
parameters: course-head rows are an arbitrary type R with a multiplication
(bellframe row multiplication), row indices (method, sub-lead index) are an arbitrary
type RI, and end markers are an arbitrary type E.  The HashMaps of the source are
embedded as total functions into Option, together with an explicit enumeration of
their keys where the source iterates over a map. -/

/-- StandardChunkId: course head, row index and is_start flag. -/
structure StdChunkId (R RI : Type) where
  course_head : R
  row_idx : RI
  is_start : Bool
  deriving DecidableEq

/-- ChunkId: either a standard chunk or the zero-length-end sentinel. -/
inductive CChunkId (R RI : Type) where
  | zeroLengthEnd
  | standard (id : StdChunkId R RI)
  deriving DecidableEq

/-- Link between chunks: target id, source link index into Layout::links, and the
part-head rotation accumulated by traversing the link. -/
structure GLink (R RI : Type) where
  id : CChunkId R RI
  source_idx : Nat
  rotation : Nat
  deriving DecidableEq

/-- Breakdown of the music generated by a chunk (src/monument/lib/src/music.rs):
a total score and per-music-type counts. -/
structure Breakdown where
  score : ℚ
  counts : List Nat
  deriving DecidableEq

/-- A Chunk of the prototype chunk graph, with all its fields
(src/monument/lib/src/graph/mod.rs). -/
structure GChunk (R RI E : Type) where
  is_start : Bool
  chunk_end : Option E
  label : String
  successors : List (GLink R RI)
  predecessors : List (GLink R RI)
  false_chunks : List (StdChunkId R RI)
  per_part_length : Nat
  total_length : Nat
  method_counts : List Nat
  music : Breakdown
  duffer : Bool
  lb_distance_from_non_duffer : Nat
  lb_distance_to_non_duffer : Nat
  required : Bool
  lb_distance_from_rounds : Nat
  lb_distance_to_rounds : Nat
  deriving DecidableEq

/-- The chunk map HashMap<ChunkId, Chunk>, embedded as a total function. -/
def ChunkMap (R RI E : Type) : Type := CChunkId R RI → Option (GChunk R RI E)

/-- RowRange: a row index together with a per-part length
(crate::layout::RowRange). -/
structure CRowRange (RI : Type) where
  start : RI
  len : Nat
  deriving DecidableEq

/-- FalsenessEntry (graph::falseness): a row range is either false against itself
within one part, or false against a list of (range, course-head transposition)
pairs. -/
inductive FalsenessEntry (R RI : Type) where
  | selfFalse
  | falseCourseHeads (fchs : List (CRowRange RI × R))
  deriving DecidableEq

section GraphAssembly

variable {R RI E : Type} [DecidableEq R] [DecidableEq RI] [Mul R]

/-- One is_start probe of the inner loop of set_falseness_links: build the candidate
false id; if it equals the own id of the chunk with a non-identity rotation, the chunk is
false against itself in another part and the whole computation aborts (Truth::False);
otherwise the id is recorded exactly when a chunk with that id and length is in the
graph. -/
def sfl_push (std_id : StdChunkId R RI) (ids_and_lengths : List (CChunkId R RI × Nat))
    (false_equiv_ch : R) (rotation : Nat) (false_range : CRowRange RI) (is_s : Bool)
    (acc : List (StdChunkId R RI)) : Option (List (StdChunkId R RI)) :=
  let false_id : StdChunkId R RI := ⟨false_equiv_ch, false_range.start, is_s⟩
  if false_id = std_id ∧ rotation ≠ 0 then none
  else if (CChunkId.standard false_id, false_range.len) ∈ ids_and_lengths then
    some (acc ++ [false_id])
  else some acc

/-- One iteration of the fchs loop of set_falseness_links: transpose the course head,
look it up in the part-head equivalence map, and probe both is_start variants. -/
def sfl_entry (std_id : StdChunkId R RI) (ch_equiv_map : R → Option (R × Nat))
    (ids_and_lengths : List (CChunkId R RI × Nat)) (e : CRowRange RI × R)
    (acc : List (StdChunkId R RI)) : Option (List (StdChunkId R RI)) :=
  match ch_equiv_map (std_id.course_head * e.2) with
  | none => some acc
  | some fr =>
    (sfl_push std_id ids_and_lengths fr.1 fr.2 e.1 true acc).bind
      (sfl_push std_id ids_and_lengths fr.1 fr.2 e.1 false)

/-- The fchs loop of set_falseness_links, with the early Truth::False return embedded
as none. -/
def sfl_fold (std_id : StdChunkId R RI) (ch_equiv_map : R → Option (R × Nat))
    (ids_and_lengths : List (CChunkId R RI × Nat)) :
    List (CRowRange RI × R) → List (StdChunkId R RI) → Option (List (StdChunkId R RI))
  | [], acc => some acc
  | e :: rest, acc =>
    (sfl_entry std_id ch_equiv_map ids_and_lengths e acc).bind
      (sfl_fold std_id ch_equiv_map ids_and_lengths rest)

/-- set_falseness_links: zero-length ends are trivially self-true; a range the
falseness table marks SelfFalse makes the chunk false; otherwise false_chunks is
cleared and refilled from the false course heads of the table, aborting with Truth::False
if the chunk turns out to be false against itself in another part.  On the aborting
branch the chunk is about to be discarded by the caller, so its contents are
irrelevant and it is returned unchanged here. -/
def set_falseness_links (id : CChunkId R RI) (chunk : GChunk R RI E)
    (table : CRowRange RI → FalsenessEntry R RI) (ch_equiv_map : R → Option (R × Nat))
    (ids_and_lengths : List (CChunkId R RI × Nat)) : Bool × GChunk R RI E :=
  match id with
  | .zeroLengthEnd => (true, chunk)
  | .standard std_id =>
    match table ⟨std_id.row_idx, chunk.per_part_length⟩ with
    | .selfFalse => (false, chunk)
    | .falseCourseHeads fchs =>
      match sfl_fold std_id ch_equiv_map ids_and_lengths fchs [] with
      | none => (false, chunk)
      | some fcs => (true, { chunk with false_chunks := fcs })

/-- The set chunk_ids_and_lengths collected at the start of compute_falseness, from
an enumeration ids of the keys of the chunk map. -/
def chunk_ids_and_lengths (ids : List (CChunkId R RI)) (m : ChunkMap R RI E) :
    List (CChunkId R RI × Nat) :=
  ids.filterMap (fun id => (m id).map (fun c => (id, c.per_part_length)))

/-- compute_falseness: retain exactly the chunks whose set_falseness_links result is
Truth::True, with their updated false_chunks. -/
def compute_falseness (ids : List (CChunkId R RI)) (m : ChunkMap R RI E)
    (table : CRowRange RI → FalsenessEntry R RI)
    (ch_equiv_map : R → Option (R × Nat)) : ChunkMap R RI E :=
  fun id =>
    match m id with
    | none => none
    | some c =>
      match set_falseness_links id c table ch_equiv_map
          (chunk_ids_and_lengths ids m) with
      | (true, c1) => some c1
      | (false, _) => none

/-- The inner loop of the predecessor-wiring stage of Graph::from_layout: for each
successor link of the chunk at src whose target is present, push the reversed link
(same source_idx, rotation num_parts - rotation) onto the predecessors of the target. -/
def add_pred_link_step (num_parts : Nat) (src : CChunkId R RI) (m1 : ChunkMap R RI E)
    (link : GLink R RI) : ChunkMap R RI E :=
  match m1 link.id with
  | none => m1
  | some t =>
    fun id =>
      if id = link.id then
        some { t with predecessors :=
          t.predecessors ++ [⟨src, link.source_idx, num_parts - link.rotation⟩] }
      else m1 id

/-- The loop over the successor links of one chunk in the predecessor-wiring stage. -/
def add_pred_links (num_parts : Nat) (src : CChunkId R RI) (links : List (GLink R RI))
    (m : ChunkMap R RI E) : ChunkMap R RI E :=
  links.foldl (add_pred_link_step num_parts src) m

/-- One iteration of the outer predecessor-wiring loop: wire the successors of the
chunk at one id, when it is present. -/
def wire_chunk_step (num_parts : Nat) (m1 : ChunkMap R RI E) (id : CChunkId R RI) :
    ChunkMap R RI E :=
  match m1 id with
  | none => m1
  | some c => add_pred_links num_parts id c.successors m1

/-- The predecessor-wiring stage of Graph::from_layout: iterate over the ids of the
expanded chunk ranges (every key of the chunk map occurs among them) and wire each
successors of each present chunk. -/
def set_predecessor_links (num_parts : Nat) (ids : List (CChunkId R RI))
    (m : ChunkMap R RI E) : ChunkMap R RI E :=
  ids.foldl (wire_chunk_step num_parts) m

end GraphAssembly

/-! ## Optimisation fixed-point loop (src/monument/lib/src/graph/mod.rs) -/

/-- The prototype Graph: chunk map (embedded as an association list so that its size
is measurable), start and end chunks, and the number of parts. -/
structure OGraph (R RI E : Type) where
  chunks : List (CChunkId R RI × GChunk R RI E)
  start_chunks : List (CChunkId R RI × Nat × Nat)
  end_chunks : List (CChunkId R RI × E)
  num_parts : Nat
  deriving DecidableEq

/-- A measure of the Size of a Graph. -/
structure Size where
  num_chunks : Nat
  num_links : Nat
  num_starts : Nat
  num_ends : Nat
  deriving DecidableEq

/-- Size::from(&Graph): chunk count, total successor-link count, start count, end
count. -/
def size_of_graph {R RI E : Type} (g : OGraph R RI E) : Size :=
  ⟨g.chunks.length, (g.chunks.map (fun p => p.2.successors.length)).sum,
    g.start_chunks.length, g.end_chunks.length⟩

/-- Size::partial_cmp: compare all four components; strictly smaller when some
component shrinks and none grows, strictly larger when some grows and none shrinks,
equal when all are equal, incomparable otherwise. -/
def size_cmp (a b : Size) : Option Ordering :=
  let cmps := [compare a.num_chunks b.num_chunks, compare a.num_links b.num_links,
    compare a.num_starts b.num_starts, compare a.num_ends b.num_ends]
  let are_any_less := cmps.any (fun c => c == Ordering.lt)
  let are_any_greater := cmps.any (fun c => c == Ordering.gt)
  match are_any_less, are_any_greater with
  | true, false => some Ordering.lt
  | false, true => some Ordering.gt
  | false, false => some Ordering.eq
  | true, true => none

/-- Graph::run_passes: apply each pass in order.  The Pass type lives in the missing
graph/optimise.rs, so a pass is modelled from the spec as a graph transformation. -/
def run_passes {R RI E : Type} (passes : List (OGraph R RI E → OGraph R RI E))
    (g : OGraph R RI E) : OGraph R RI E :=
  passes.foldl (fun g1 p => p g1) g

/-- The loop body of Graph::optimise_with_iter_limit: run the passes, compare the new
size with the previous one, return on Equal or Greater, keep iterating on Less or on
incomparable sizes. -/
def optimise_loop {R RI E : Type} (passes : List (OGraph R RI E → OGraph R RI E)) :
    Nat → Size → OGraph R RI E → OGraph R RI E
  | 0, _, g => g
  | limit + 1, last_size, g =>
    let g1 := run_passes passes g
    match size_cmp (size_of_graph g1) last_size with
    | some Ordering.eq => g1
    | some Ordering.gt => g1
    | _ => optimise_loop passes limit (size_of_graph g1) g1

/-- Graph::optimise_with_iter_limit. -/
def optimise_with_iter_limit {R RI E : Type}
    (passes : List (OGraph R RI E → OGraph R RI E)) (limit : Nat) (g : OGraph R RI E) :
    OGraph R RI E :=
  optimise_loop passes limit (size_of_graph g) g

/-- Graph::optimise: the default iteration cap is 20. -/
def optimise {R RI E : Type} (passes : List (OGraph R RI E → OGraph R RI E))
    (g : OGraph R RI E) : OGraph R RI E :=
  optimise_with_iter_limit passes 20 g

/-! ## Theorems: lead counting (C9, C10) -/

/-- Ceiling of a natural division, expressed through Nat floor division. -/
theorem nat_ceil_div (a b : Nat) (hb : 0 < b) :
    (⌈((a : ℚ)) / (b : ℚ)⌉ : ℤ) = ((a + b - 1) / b : ℕ) := by
  have hq := Nat.div_add_mod (a + b - 1) b
  have hr : (a + b - 1) % b < b := Nat.mod_lt _ hb
  have h3 : b * ((a + b - 1) / b) < a + b := by omega
  have h4 : a ≤ b * ((a + b - 1) / b) := by omega
  have hbq : (0 : ℚ) < (b : ℚ) := by exact_mod_cast hb
  have h3q : (b : ℚ) * (((a + b - 1) / b : ℕ) : ℚ) < (a : ℚ) + (b : ℚ) := by
    exact_mod_cast h3
  have h4q : (a : ℚ) ≤ (b : ℚ) * (((a + b - 1) / b : ℕ) : ℚ) := by exact_mod_cast h4
  rw [Int.ceil_eq_iff]
  constructor
  · rw [lt_div_iff₀ hbq, Int.cast_natCast, sub_mul, one_mul]
    linarith
  · rw [div_le_iff₀ hbq, Int.cast_natCast]
    linarith

/-- C9: for every lead_len > 0, every 0 <= start_sub_lead_idx < lead_len and every
length > 0, num_leads_covered equals 1 + ceil(max(0, length - (lead_len -
start_sub_lead_idx)) / lead_len) (Nat truncated subtraction is the max with 0), and
the five concrete scenario values hold. -/
theorem C9_num_leads_covered :
    (∀ lead_len s n : Nat, 0 < lead_len → s < lead_len → 0 < n →
      (num_leads_covered lead_len s n : ℤ) =
        1 + ⌈(((n - (lead_len - s) : ℕ)) : ℚ) / (lead_len : ℚ)⌉) ∧
    num_leads_covered 32 0 32 = 1 ∧ num_leads_covered 32 2 32 = 2 ∧
    num_leads_covered 32 2 30 = 1 ∧ num_leads_covered 32 0 2 = 1 ∧
    num_leads_covered 32 16 24 = 2 := by
  refine ⟨?_, by decide, by decide, by decide, by decide, by decide⟩
  intro L s n hL _hs _hn
  rw [nat_ceil_div (n - (L - s)) L hL]
  unfold num_leads_covered div_rounding_up
  push_cast
  ring

/-- C9 witness: the quantified part of C9 instantiated at (32, 2, 30). -/
theorem C9_witness :
    (num_leads_covered 32 2 30 : ℤ) =
      1 + ⌈(((30 - (32 - 2) : ℕ)) : ℚ) / ((32 : ℕ) : ℚ)⌉ :=
  C9_num_leads_covered.1 32 2 30 (by decide) (by decide) (by decide)

/-- C10 (amended): num_leads_covered asserts (panics) whenever length = 0; and under
the preconditions length > 0, start_sub_lead_idx <= lead_len AND lead_len > 0 it is
total, agreeing with the unchecked function.  (Without lead_len > 0 the claim fails:
see the counterexample.) -/
theorem C10_total_under_preconditions :
    (∀ lead_len s : Nat, num_leads_covered_checked lead_len s 0 = none) ∧
    (∀ lead_len s n : Nat, 0 < n → s ≤ lead_len → 0 < lead_len →
      num_leads_covered_checked lead_len s n = some (num_leads_covered lead_len s n)) := by
  constructor
  · intro lead_len s
    simp [num_leads_covered_checked]
  · intro L s n hn hs hL
    simp only [num_leads_covered_checked, div_rounding_up_checked, num_leads_covered,
      div_rounding_up]
    rw [if_neg (by omega), if_neg (by omega), if_neg (by omega)]
    rfl

/-- C10 witness: the zero-length panic at (5, 3) and totality at (5, 3, 7). -/
theorem C10_witness :
    num_leads_covered_checked 5 3 0 = none ∧
    num_leads_covered_checked 5 3 7 = some (num_leads_covered 5 3 7) :=
  ⟨C10_total_under_preconditions.1 5 3,
    C10_total_under_preconditions.2 5 3 7 (by decide) (by decide) (by decide)⟩

/-- C10 counterexample: at lead_len = 0, start_sub_lead_idx = 0, length = 1 the
claimed preconditions (length > 0 and start_sub_lead_idx <= lead_len) hold, yet the
function is not total: the division inside div_rounding_up is by lead_len = 0. -/
theorem C10_counterexample :
    (0 < 1 ∧ 0 ≤ (0 : Nat)) ∧ num_leads_covered_checked 0 0 1 = none := by decide

/-! ## Theorems: stroke consistency (C7) -/

/-- C7 counterexample: with one stroke-specific music type and a single non-end chunk
of odd per-part length 3, the build stage panics on the assert; it does not return
the InconsistentStroke error value. -/
theorem C7_counterexample :
    from_layout_stroke_check [⟨StrokeSet.hand⟩] [(3, false)] = BuildOutcome.panicked ∧
    BuildOutcome.panicked ≠ BuildOutcome.errored_inconsistent_stroke := by decide

/-- C7 (amended): the stroke-consistency stage of Graph::from_layout never returns
the InconsistentStroke error; it panics (assert failure) exactly when some music type
is stroke-specific and some non-end chunk has odd per-part length. -/
theorem C7_stroke_check_panics :
    ∀ (mts : List MusicTypeS) (ranges : List (Nat × Bool)),
      from_layout_stroke_check mts ranges ≠ BuildOutcome.errored_inconsistent_stroke ∧
      (from_layout_stroke_check mts ranges = BuildOutcome.panicked ↔
        dependence_on_stroke mts = true ∧ ∃ r ∈ ranges, r.1 % 2 = 1 ∧ r.2 = false) := by
  intro mts ranges
  unfold from_layout_stroke_check
  split
  case isTrue h =>
    simp only [List.all_eq_true] at h
    refine ⟨by simp, ?_⟩
    constructor
    · intro hc
      exact absurd hc (by simp)
    · rintro ⟨hdep, r, hr, hodd, hend⟩
      have hc := h r hr
      rw [stroke_check_chunk, hdep, hend] at hc
      simp at hc
      omega
  case isFalse h =>
    simp only [List.all_eq_true, not_forall] at h
    obtain ⟨r, hr, hc⟩ := h
    refine ⟨by simp, ?_⟩
    simp only [true_iff]
    rw [stroke_check_chunk] at hc
    simp only [Bool.not_or, Bool.or_eq_true, Bool.not_eq_true, decide_eq_true_eq] at hc
    rcases hdep : dependence_on_stroke mts with _ | _
    · rw [hdep] at hc
      simp at hc
    · rw [hdep] at hc
      simp at hc
      exact ⟨rfl, r, hr, by omega, hc.2⟩

/-! ## Theorems: length bounds in search_lowered (C1) -/

/-- C1: with len_range representing the inclusive [min_length, max_length] as the
half-open range min_length..(max_length + 1), the emission test of search_lowered
accepts a length iff min_length <= length <= max_length, and the successor-pruning
test rejects a new length iff it exceeds max_length. -/
theorem C1_length_bounds (d : SearchData) (min_length max_length l : Nat)
    (hs : d.len_range_start = min_length) (he : d.len_range_end = max_length + 1) :
    (len_range_contains d l = true ↔ min_length ≤ l ∧ l ≤ max_length) ∧
    (too_long d l = true ↔ max_length < l) := by
  constructor
  · simp only [len_range_contains, hs, he, Bool.and_eq_true, decide_eq_true_eq]
    omega
  · simp only [too_long, he, decide_eq_true_eq]
    omega

/-- C1 witness: bounds 3..=8; length 8 (the maximum) is accepted for emission and
not pruned. -/
theorem C1_witness :
    (len_range_contains ⟨3, 9, 1, 10⟩ 8 = true ↔ 3 ≤ 8 ∧ 8 ≤ 8) ∧
    (too_long ⟨3, 9, 1, 10⟩ 8 = true ↔ 8 < 8) :=
  C1_length_bounds ⟨3, 9, 1, 10⟩ 3 8 8 rfl rfl

/-! ## Theorems: optimisation fixed-point loop (C6) -/

/-- Comparing a size with itself yields Equal. -/
theorem size_cmp_self (s : Size) : size_cmp s s = some Ordering.eq := by
  have hc : ∀ n : Nat, compare n n = Ordering.eq := fun n => Nat.compare_eq_eq.2 rfl
  simp only [size_cmp, hc, List.any_cons, List.any_nil]
  rfl

/-- Every run of the optimisation loop is some number of pass applications, bounded
by the iteration limit. -/
theorem optimise_loop_iterate {R RI E : Type}
    (passes : List (OGraph R RI E → OGraph R RI E)) :
    ∀ (limit : Nat) (last_size : Size) (g : OGraph R RI E),
      ∃ k ≤ limit, optimise_loop passes limit last_size g = (run_passes passes)^[k] g := by
  intro limit
  induction limit with
  | zero => exact fun ls g => ⟨0, Nat.le_refl 0, rfl⟩
  | succ n ih =>
    intro ls g
    simp only [optimise_loop]
    split
    · exact ⟨1, by omega, (Function.iterate_one (run_passes passes) ▸ rfl)⟩
    · exact ⟨1, by omega, (Function.iterate_one (run_passes passes) ▸ rfl)⟩
    · obtain ⟨k, hk, he⟩ := ih (size_of_graph (run_passes passes g)) (run_passes passes g)
      exact ⟨k + 1, by omega, by rw [Function.iterate_succ_apply]; exact he⟩

/-- If the first pass application does not make the size strictly smaller in the
partial order (it compares Equal or Greater), the loop returns it immediately. -/
theorem optimise_stops_when_not_smaller {R RI E : Type}
    (passes : List (OGraph R RI E → OGraph R RI E)) (g : OGraph R RI E)
    (h : size_cmp (size_of_graph (run_passes passes g)) (size_of_graph g) =
        some Ordering.eq ∨
      size_cmp (size_of_graph (run_passes passes g)) (size_of_graph g) =
        some Ordering.gt) :
    optimise passes g = run_passes passes g := by
  show optimise_loop passes 20 (size_of_graph g) g = run_passes passes g
  rcases h with h | h <;> simp only [optimise_loop, h]

/-- C6 (amended): the fixed-point loop applies the pass sequence at most 20 times
(the default cap); it returns as soon as one application leaves the size equal or
makes it component-wise larger (but keeps iterating when the new size is
incomparable, i.e. some component shrank while another grew); and a graph that is an
exact fixed point of the pass sequence is returned unchanged after a single
application, so re-optimising it leaves its size identical. -/
theorem C6_optimise_fixed_point {R RI E : Type} :
    (∀ (passes : List (OGraph R RI E → OGraph R RI E)) (g : OGraph R RI E),
      ∃ k ≤ 20, optimise passes g = (run_passes passes)^[k] g) ∧
    (∀ (passes : List (OGraph R RI E → OGraph R RI E)) (g : OGraph R RI E),
      size_cmp (size_of_graph (run_passes passes g)) (size_of_graph g) =
          some Ordering.eq ∨
        size_cmp (size_of_graph (run_passes passes g)) (size_of_graph g) =
          some Ordering.gt →
      optimise passes g = run_passes passes g) ∧
    (∀ (passes : List (OGraph R RI E → OGraph R RI E)) (g : OGraph R RI E),
      run_passes passes g = g → optimise passes g = g) := by
  refine ⟨?_, ?_, ?_⟩
  · intro passes g
    exact optimise_loop_iterate passes 20 (size_of_graph g) g
  · intro passes g h
    exact optimise_stops_when_not_smaller passes g h
  · intro passes g h
    have h1 := optimise_stops_when_not_smaller passes g
      (Or.inl (by rw [h, size_cmp_self]))
    rw [h1, h]

/-- A link value for the C6 counterexample graphs. -/
def cex_link : GLink ℕ ℕ := ⟨CChunkId.zeroLengthEnd, 0, 0⟩

/-- A chunk with n successor links and no other content, for the C6 counterexample. -/
def cex_chunk (n : Nat) : GChunk ℕ ℕ Unit :=
  ⟨false, none, "", List.replicate n cex_link, [], [], 1, 1, [], ⟨0, []⟩, false, 0, 0,
    false, 0, 0⟩

/-- C6 counterexample initial graph: one chunk with two links, size (1, 2, 0, 0). -/
def cex_g0 : OGraph ℕ ℕ Unit :=
  ⟨[(CChunkId.zeroLengthEnd, cex_chunk 2)], [], [], 1⟩

/-- First intermediate graph: two chunks, one link, size (2, 1, 0, 0), which is
incomparable with (1, 2, 0, 0). -/
def cex_g1 : OGraph ℕ ℕ Unit :=
  ⟨[(CChunkId.standard ⟨0, 0, false⟩, cex_chunk 1),
    (CChunkId.standard ⟨1, 0, false⟩, cex_chunk 0)], [], [], 1⟩

/-- Second intermediate graph: same size (2, 1, 0, 0) as cex_g1 but different
content. -/
def cex_g2 : OGraph ℕ ℕ Unit :=
  ⟨[(CChunkId.standard ⟨0, 0, false⟩, cex_chunk 0),
    (CChunkId.standard ⟨1, 0, false⟩, cex_chunk 1)], [], [], 1⟩

/-- A concrete pass: g0 to g1 (incomparable size change), then g1 to g2 (equal
size), then fixed. -/
def cex_pass (g : OGraph ℕ ℕ Unit) : OGraph ℕ ℕ Unit :=
  if g = cex_g0 then cex_g1 else cex_g2

/-- C6 counterexample: applying the passes once to cex_g0 fails to make the size
strictly smaller (the sizes are incomparable), yet the loop does not return that
result: it keeps iterating and returns a different graph.  This falsifies the claim
that the loop returns as soon as one application fails to make the size strictly
smaller. -/
theorem C6_counterexample :
    size_cmp (size_of_graph (run_passes [cex_pass] cex_g0)) (size_of_graph cex_g0) ≠
      some Ordering.lt ∧
    optimise [cex_pass] cex_g0 ≠ run_passes [cex_pass] cex_g0 := by decide

/-- C6 witness: the empty pass list leaves any graph fixed, so optimise returns
cex_g0 unchanged after a single application. -/
theorem C6_witness : optimise [] cex_g0 = cex_g0 :=
  C6_optimise_fixed_point.2.2 [] cex_g0 rfl

/-! ## Theorems: emission order of search_lowered (C5) -/

/-- pop_max returns none exactly on the empty frontier. -/
theorem pop_max_eq_none (l : List CompBranch) : pop_max l = none ↔ l = [] := by
  cases l with
  | nil => simp [pop_max]
  | cons x xs =>
    simp only [pop_max]
    cases h : pop_max xs with
    | none => simp
    | some p =>
      obtain ⟨m, rest⟩ := p
      by_cases hlt : x.avg_score < m.avg_score <;> simp [hlt]

/-- C5 (amended): the frontier pop of search_lowered always returns a prefix of
maximal avg_score among the current frontier; this is what the best-first order
guarantees.  It does not make the emission sequence monotone, because expanding a
prefix can increase its average score (see the counterexample). -/
theorem C5_pop_max_is_max :
    ∀ (l : List CompBranch) (b : CompBranch) (rest : List CompBranch),
      pop_max l = some (b, rest) → ∀ q ∈ l, q.avg_score ≤ b.avg_score := by
  intro l
  induction l with
  | nil => intro b rest h; simp [pop_max] at h
  | cons x xs ih =>
    intro b rest h q hq
    simp only [pop_max] at h
    split at h
    next hxs =>
      simp only [Option.some.injEq, Prod.mk.injEq] at h
      obtain ⟨hb, hrest⟩ := h
      subst hb
      rcases List.mem_cons.1 hq with hqx | hqxs
      · rw [hqx]
      · rw [(pop_max_eq_none xs).1 hxs] at hqxs
        exact absurd hqxs (List.not_mem_nil q)
    next m rest2 hxs =>
      by_cases hlt : x.avg_score < m.avg_score
      · rw [if_pos hlt] at h
        simp only [Option.some.injEq, Prod.mk.injEq] at h
        obtain ⟨hb, hrest⟩ := h
        subst hb
        rcases List.mem_cons.1 hq with hqx | hqxs
        · rw [hqx]
          exact le_of_lt hlt
        · exact ih m rest2 hxs q hqxs
      · rw [if_neg hlt] at h
        simp only [Option.some.injEq, Prod.mk.injEq] at h
        obtain ⟨hb, hrest⟩ := h
        subst hb
        rcases List.mem_cons.1 hq with hqx | hqxs
        · rw [hqx]
        · exact (ih m rest2 hxs q hqxs).trans (not_lt.1 hlt)

/-- Two concrete frontier elements for the C5 witness. -/
def br_a : CompBranch := CompBranch.mk_new (.start 0) 0 [true] 1 1

/-- The lower-scored of the two concrete frontier elements. -/
def br_b : CompBranch := CompBranch.mk_new (.start 1) 1 [true] 0 1

/-- C5 witness: popping the concrete two-element frontier returns its maximum, so
the other element scores no higher. -/
theorem C5_witness : br_b.avg_score ≤ br_a.avg_score :=
  C5_pop_max_is_max [br_a, br_b] br_a [br_b] (by with_unfolding_all decide) br_b
    (List.mem_cons_of_mem _ (List.mem_cons_self _ _))

/-- C5 counterexample graph: node 0 is a terminal start of average score 1; node 1 is
a non-terminal start of average score 1/2 whose successor, node 2, is terminal with
score 7/2; the prefix through nodes 1 and 2 has average score 2. -/
def g5 : LGraph :=
  ⟨[⟨[], [true, false, false], 1, 1, some "E"⟩,
    ⟨[(0, 2)], [false, true, false], 1 / 2, 1, none⟩,
    ⟨[], [false, false, true], 7 / 2, 1, some "E"⟩],
    [(0, "a"), (1, "b")]⟩

/-- Search data for the C5 counterexample: lengths 1..=9, two comps, large queue. -/
def d5 : SearchData := ⟨1, 10, 2, 100⟩

/-- C5 counterexample: this single run of search_lowered emits average scores
[1, 2] in that order, which is not monotone non-increasing. -/
theorem C5_counterexample :
    (search_lowered g5 d5 10).map Comp.avg_score = [1, 2] ∧
    ¬ List.Chain' (fun a b : ℚ => b ≤ a) ((search_lowered g5 d5 10).map Comp.avg_score) := by
  have h : (search_lowered g5 d5 10).map Comp.avg_score = [1, 2] := by
    with_unfolding_all decide
  refine ⟨h, ?_⟩
  rw [h]
  intro hchain
  rw [List.chain'_cons] at hchain
  exact absurd hchain.1 (by norm_num)

/-! ## Theorems: queue truncation and queue limit (C8) -/

/-- Popping removes exactly one element from the frontier. -/
theorem pop_max_length :
    ∀ (l : List CompBranch) (b : CompBranch) (rest : List CompBranch),
      pop_max l = some (b, rest) → rest.length + 1 = l.length := by
  intro l
  induction l with
  | nil => intro b rest h; simp [pop_max] at h
  | cons x xs ih =>
    intro b rest h
    simp only [pop_max] at h
    split at h
    next hxs =>
      simp only [Option.some.injEq, Prod.mk.injEq] at h
      obtain ⟨hb, hrest⟩ := h
      rw [← hrest, (pop_max_eq_none xs).1 hxs]
      rfl
    next m rest2 hxs =>
      by_cases hlt : x.avg_score < m.avg_score
      · rw [if_pos hlt] at h
        simp only [Option.some.injEq, Prod.mk.injEq] at h
        obtain ⟨hb, hrest⟩ := h
        have := ih m rest2 hxs
        rw [← hrest]
        simp only [List.length_cons]
        omega
      · rw [if_neg hlt] at h
        simp only [Option.some.injEq, Prod.mk.injEq] at h
        obtain ⟨hb, hrest⟩ := h
        rw [← hrest]
        rfl

/-- The search loop never lets the frontier at the start of an iteration exceed the
queue limit, provided it starts within the limit: emission iterations only pop, and
expansion iterations either stay below the limit or truncate to half of it. -/
theorem search_loop_trace_bound (g : LGraph) (d : SearchData) :
    ∀ (fuel : Nat) (frontier : List CompBranch) (comps : List Comp)
      (trace : List (Nat × Bool)),
      frontier.length ≤ d.queue_limit →
      (∀ p ∈ trace, p.1 ≤ d.queue_limit) →
      ∀ p ∈ (search_loop g d fuel frontier comps trace).2, p.1 ≤ d.queue_limit := by
  intro fuel
  induction fuel with
  | zero => intro frontier comps trace _hf ht p hp; exact ht p hp
  | succ n ih =>
    intro frontier comps trace hf ht p hp
    simp only [search_loop] at hp
    split at hp
    · exact ht p hp
    next br rest hpop =>
      have hrest : rest.length + 1 = frontier.length := pop_max_length frontier br rest hpop
      have hrest_le : rest.length ≤ d.queue_limit := by omega
      have htrace1 : ∀ b : Bool, ∀ p ∈ trace ++ [(frontier.length, b)],
          p.1 ≤ d.queue_limit := by
        intro b q hq
        rcases List.mem_append.1 hq with hq | hq
        · exact ht q hq
        · rw [List.mem_singleton.1 hq]
          exact hf
      split at hp
      · exact ht p hp
      next node hnode =>
        split at hp
        next lbl hlbl =>
          split at hp
          · split at hp
            · exact htrace1 false p hp
            · exact ih rest _ _ hrest_le (htrace1 false) p hp
          · exact ih rest _ _ hrest_le (htrace1 false) p hp
        next hlbl =>
          refine ih _ _ _ ?_ (htrace1 true) p hp
          split
          next htrunc =>
            rw [frontier_truncate, List.length_take]
            have h2 : d.queue_limit / 2 ≤ d.queue_limit := Nat.div_le_self _ _
            omega
          next htrunc =>
            omega

/-- C8 (amended): BestFirst::truncate(len) keeps exactly min(len, previous length)
elements; the kept and dropped elements together are a permutation of the original
frontier; every dropped element scores no higher than every kept element; and,
provided the initial frontier (one entry per start chunk) does not exceed
queue_limit, the frontier length at the start of every iteration of search_lowered
-- in particular of every expansion iteration -- never exceeds queue_limit. -/
theorem C8_queue_truncation :
    (∀ (l : List CompBranch) (len : Nat),
      (frontier_truncate len l).length = min len l.length) ∧
    (∀ (l : List CompBranch) (len : Nat),
      (frontier_truncate len l ++ (sort_desc l).drop len).Perm l) ∧
    (∀ (l : List CompBranch) (len : Nat) (x y : CompBranch),
      x ∈ frontier_truncate len l → y ∈ (sort_desc l).drop len →
      y.avg_score ≤ x.avg_score) ∧
    (∀ (g : LGraph) (d : SearchData) (fuel : Nat),
      g.starts.length ≤ d.queue_limit →
      ∀ p ∈ search_trace g d fuel, p.1 ≤ d.queue_limit) := by
  refine ⟨?_, ?_, ?_, ?_⟩
  · intro l len
    have hlen : (sort_desc l).length = l.length :=
      List.Perm.length_eq (List.perm_insertionSort branch_ge l)
    rw [frontier_truncate, List.length_take, hlen]
  · intro l len
    rw [frontier_truncate, List.take_append_drop]
    exact List.perm_insertionSort branch_ge l
  · intro l len x y hx hy
    have hs : List.Sorted branch_ge (sort_desc l) := List.sorted_insertionSort branch_ge l
    have hs2 : List.Pairwise branch_ge
        ((sort_desc l).take len ++ (sort_desc l).drop len) := by
      rw [List.take_append_drop]
      exact hs
    exact (List.pairwise_append.1 hs2).2.2 x hx y hy
  · intro g d fuel hstarts
    have hinit : (init_frontier g).length ≤ d.queue_limit := by
      have h1 : (init_frontier g).length ≤ g.starts.enum.length :=
        List.length_filterMap_le _ _
      rw [List.enum_length] at h1
      omega
    exact search_loop_trace_bound g d fuel (init_frontier g) [] [] hinit
      (by intro p hp; exact absurd hp (List.not_mem_nil p))

/-- C8 counterexample graph: three start nodes, none of them an end, no successors. -/
def g8 : LGraph :=
  ⟨[⟨[], [true, true, true], 1, 1, none⟩,
    ⟨[], [true, true, true], 1, 1, none⟩,
    ⟨[], [true, true, true], 1, 1, none⟩],
    [(0, "a"), (1, "b"), (2, "c")]⟩

/-- Search data with queue_limit 1, smaller than the number of starts. -/
def d8 : SearchData := ⟨1, 10, 5, 1⟩

/-- C8 counterexample: with three start chunks and queue_limit 1, the very first
iteration is an expansion iteration whose frontier already holds 3 > 1 elements, so
the frontier does exceed queue_limit at the start of an expansion iteration. -/
theorem C8_counterexample :
    (3, true) ∈ search_trace g8 d8 10 ∧ d8.queue_limit < 3 := by
  with_unfolding_all decide

/-- C8 witness: the truncate ordering property on a concrete two-element frontier,
and the queue-limit bound on the concrete run of the C5 graph (2 starts, limit 100). -/
theorem C8_witness :
    br_b.avg_score ≤ br_a.avg_score ∧
    (∀ p ∈ search_trace g5 d5 5, p.1 ≤ d5.queue_limit) :=
  ⟨C8_queue_truncation.2.2.1 [br_a, br_b] 1 br_a br_b
      (by with_unfolding_all decide) (by with_unfolding_all decide),
    C8_queue_truncation.2.2.2 g5 d5 5 (by decide)⟩

/-! ## Theorems: predecessor wiring (C2) -/

section PredecessorWiring

variable {R RI E : Type} [DecidableEq R] [DecidableEq RI]


/-- How the predecessor-wiring code can change a chunk map: no key appears or
disappears, successors are untouched, and predecessor lists only grow. -/
def MapExtends (m m1 : ChunkMap R RI E) : Prop :=
  (∀ id, m id = none → m1 id = none) ∧
  (∀ id c, m id = some c → ∃ c1, m1 id = some c1 ∧ c1.successors = c.successors ∧
    ∀ p ∈ c.predecessors, p ∈ c1.predecessors)

/-- The chunk at id has all its reverse links in place: for every successor link
with a present target, the predecessors of the target contain the reversed link. -/
def pred_done (n : Nat) (m : ChunkMap R RI E) (id : CChunkId R RI) : Prop :=
  ∀ c, m id = some c → ∀ l ∈ c.successors, ∀ t, m l.id = some t →
    (⟨id, l.source_idx, n - l.rotation⟩ : GLink R RI) ∈ t.predecessors

theorem map_extends_refl (m : ChunkMap R RI E) : MapExtends m m :=
  ⟨fun _ h => h, fun _ c h => ⟨c, h, rfl, fun _ hp => hp⟩⟩

theorem map_extends_trans {a b c : ChunkMap R RI E}
    (hab : MapExtends a b) (hbc : MapExtends b c) : MapExtends a c := by
  refine ⟨fun id h => hbc.1 id (hab.1 id h), fun id x hx => ?_⟩
  obtain ⟨y, hy, hys, hyp⟩ := hab.2 id x hx
  obtain ⟨z, hz, hzs, hzp⟩ := hbc.2 id y hy
  exact ⟨z, hz, hzs.trans hys, fun p hp => hzp p (hyp p hp)⟩

theorem add_pred_link_step_extends (n : Nat) (src : CChunkId R RI)
    (m : ChunkMap R RI E) (link : GLink R RI) :
    MapExtends m (add_pred_link_step n src m link) := by
  unfold add_pred_link_step
  split
  · exact map_extends_refl m
  next t ht =>
    constructor
    · intro id hid
      by_cases h1 : id = link.id
      · rw [h1, ht] at hid
        exact Option.noConfusion hid
      · simp only [if_neg h1]
        exact hid
    · intro id c hc
      by_cases h1 : id = link.id
      · subst h1
        rw [ht] at hc
        obtain rfl : t = c := Option.some.inj hc
        refine ⟨{ t with predecessors :=
            t.predecessors ++ [⟨src, link.source_idx, n - link.rotation⟩] }, ?_, rfl,
          fun p hp => List.mem_append_left _ hp⟩
        simp
      · refine ⟨c, ?_, rfl, fun p hp => hp⟩
        simp only [if_neg h1]
        exact hc

theorem add_pred_links_cons (n : Nat) (src : CChunkId R RI) (l : GLink R RI)
    (rest : List (GLink R RI)) (m : ChunkMap R RI E) :
    add_pred_links n src (l :: rest) m =
      add_pred_links n src rest (add_pred_link_step n src m l) := rfl

theorem add_pred_links_extends (n : Nat) (src : CChunkId R RI) :
    ∀ (links : List (GLink R RI)) (m : ChunkMap R RI E),
      MapExtends m (add_pred_links n src links m) := by
  intro links
  induction links with
  | nil => intro m; exact map_extends_refl m
  | cons l rest ih =>
    intro m
    rw [add_pred_links_cons]
    exact map_extends_trans (add_pred_link_step_extends n src m l)
      (ih (add_pred_link_step n src m l))

theorem wire_chunk_step_extends (n : Nat) (m : ChunkMap R RI E) (id : CChunkId R RI) :
    MapExtends m (wire_chunk_step n m id) := by
  unfold wire_chunk_step
  split
  · exact map_extends_refl m
  next c hc => exact add_pred_links_extends n id c.successors m

theorem set_predecessor_links_extends (n : Nat) :
    ∀ (ids : List (CChunkId R RI)) (m : ChunkMap R RI E),
      MapExtends m (set_predecessor_links n ids m) := by
  intro ids
  induction ids with
  | nil => intro m; exact map_extends_refl m
  | cons id0 rest ih =>
    intro m
    exact map_extends_trans (wire_chunk_step_extends n m id0)
      (ih (wire_chunk_step n m id0))

theorem pred_done_mono {n : Nat} {m m1 : ChunkMap R RI E} {id : CChunkId R RI}
    (hext : MapExtends m m1) (hdone : pred_done n m id) : pred_done n m1 id := by
  intro c1 hc1 l hl t1 ht1
  cases hm : m id with
  | none =>
    rw [hext.1 id hm] at hc1
    exact Option.noConfusion hc1
  | some c =>
    obtain ⟨c2, hc2, hsucc, _⟩ := hext.2 id c hm
    rw [hc1] at hc2
    obtain rfl : c1 = c2 := Option.some.inj hc2
    cases hmt : m l.id with
    | none =>
      rw [hext.1 l.id hmt] at ht1
      exact Option.noConfusion ht1
    | some t =>
      obtain ⟨t2, ht2, _, hpredt⟩ := hext.2 l.id t hmt
      rw [ht1] at ht2
      obtain rfl : t1 = t2 := Option.some.inj ht2
      exact hpredt _ (hdone c hm l (hsucc ▸ hl) t hmt)

theorem add_pred_links_establishes (n : Nat) (src : CChunkId R RI) :
    ∀ (links : List (GLink R RI)) (m : ChunkMap R RI E), ∀ l ∈ links, ∀ t,
      (add_pred_links n src links m) l.id = some t →
      (⟨src, l.source_idx, n - l.rotation⟩ : GLink R RI) ∈ t.predecessors := by
  intro links
  induction links with
  | nil => intro m l hl; exact absurd hl (List.not_mem_nil l)
  | cons l0 rest ih =>
    intro m l hl t ht
    rw [add_pred_links_cons] at ht
    rcases List.mem_cons.1 hl with h1 | h1
    · subst h1
      cases hm : m l.id with
      | none =>
        have hstep : add_pred_link_step n src m l = m := by
          unfold add_pred_link_step
          rw [hm]
        rw [hstep] at ht
        rw [(add_pred_links_extends n src rest m).1 l.id hm] at ht
        exact Option.noConfusion ht
      | some t0 =>
        have hstep : (add_pred_link_step n src m l) l.id =
            some { t0 with predecessors :=
              t0.predecessors ++ [⟨src, l.source_idx, n - l.rotation⟩] } := by
          unfold add_pred_link_step
          rw [hm]
          simp
        obtain ⟨t2, ht2, _, hpredt⟩ :=
          (add_pred_links_extends n src rest (add_pred_link_step n src m l)).2 l.id _ hstep
        rw [ht] at ht2
        obtain rfl : t = t2 := Option.some.inj ht2
        exact hpredt _ (List.mem_append_right _ (List.mem_singleton_self _))
    · exact ih (add_pred_link_step n src m l0) l h1 t ht

theorem wire_chunk_step_done (n : Nat) (m : ChunkMap R RI E) (id0 : CChunkId R RI) :
    pred_done n (wire_chunk_step n m id0) id0 := by
  intro c1 hc1 l hl t1 ht1
  cases hm : m id0 with
  | none =>
    have hw : wire_chunk_step n m id0 = m := by
      unfold wire_chunk_step
      rw [hm]
    rw [hw, hm] at hc1
    exact Option.noConfusion hc1
  | some c0 =>
    have hw : wire_chunk_step n m id0 = add_pred_links n id0 c0.successors m := by
      unfold wire_chunk_step
      rw [hm]
    rw [hw] at hc1 ht1
    obtain ⟨c2, hc2, hsucc, _⟩ := (add_pred_links_extends n id0 c0.successors m).2 id0 c0 hm
    rw [hc1] at hc2
    obtain rfl : c1 = c2 := Option.some.inj hc2
    exact add_pred_links_establishes n id0 c0.successors m l (hsucc ▸ hl) t1 ht1

theorem set_predecessor_links_done (n : Nat) :
    ∀ (ids : List (CChunkId R RI)) (m : ChunkMap R RI E),
      (∀ id, (m id).isSome → id ∈ ids ∨ pred_done n m id) →
      ∀ id, ((set_predecessor_links n ids m) id).isSome →
        pred_done n (set_predecessor_links n ids m) id := by
  intro ids
  induction ids with
  | nil =>
    intro m hyp id hsome
    rcases hyp id hsome with h | h
    · exact absurd h (List.not_mem_nil id)
    · exact h
  | cons id0 rest ih =>
    intro m hyp id hsome
    have hstep : set_predecessor_links n (id0 :: rest) m =
        set_predecessor_links n rest (wire_chunk_step n m id0) := rfl
    rw [hstep] at hsome ⊢
    refine ih (wire_chunk_step n m id0) ?_ id hsome
    intro id1 hsome1
    have hsome0 : (m id1).isSome := by
      cases hmm : m id1 with
      | some c => simp
      | none =>
        rw [(wire_chunk_step_extends n m id0).1 id1 hmm] at hsome1
        exact absurd hsome1 (by simp)
    rcases hyp id1 hsome0 with hmem | hdone
    · rcases List.mem_cons.1 hmem with h1 | h1
      · subst h1
        exact Or.inr (wire_chunk_step_done n m id1)
      · exact Or.inl h1
    · exact Or.inr (pred_done_mono (wire_chunk_step_extends n m id0) hdone)

/-- C2: after the predecessor-wiring stage (all rotations of successor links satisfy
the source assert rotation < num_parts, and the iteration covers every key of the
chunk map), every successor link with a present target has a reverse link in the
predecessors of the target with the same id and source index and with inverse rotation
modulo num_parts: (r + r_back) % num_parts = 0, in particular also when r = 0. -/
theorem C2_predecessor_inverse (num_parts : Nat) (ids : List (CChunkId R RI))
    (m : ChunkMap R RI E)
    (hkeys : ∀ id, (m id).isSome → id ∈ ids)
    (hrot : ∀ id c, m id = some c → ∀ l ∈ c.successors, l.rotation < num_parts) :
    ∀ id c, (set_predecessor_links num_parts ids m) id = some c →
      ∀ l ∈ c.successors, ∀ t, (set_predecessor_links num_parts ids m) l.id = some t →
        ∃ p ∈ t.predecessors, p.id = id ∧ p.source_idx = l.source_idx ∧
          (l.rotation + p.rotation) % num_parts = 0 := by
  intro id c hc l hl t ht
  have hdone := set_predecessor_links_done num_parts ids m
    (fun id1 h1 => Or.inl (hkeys id1 h1)) id (by rw [hc]; simp)
  have hmem := hdone c hc l hl t ht
  refine ⟨⟨id, l.source_idx, num_parts - l.rotation⟩, hmem, rfl, rfl, ?_⟩
  have hext := set_predecessor_links_extends num_parts ids m
  cases hm : m id with
  | none =>
    rw [hext.1 id hm] at hc
    exact Option.noConfusion hc
  | some c0 =>
    obtain ⟨c2, hc2, hsucc, _⟩ := hext.2 id c0 hm
    rw [hc] at hc2
    obtain rfl : c = c2 := Option.some.inj hc2
    have hr := hrot id c0 hm l (hsucc ▸ hl)
    rw [Nat.add_sub_cancel' (le_of_lt hr), Nat.mod_self]

end PredecessorWiring

/-! ## Theorems: falseness computation (C3, C4) -/

section FalsenessComputation

variable {R RI E : Type} [DecidableEq R] [DecidableEq RI] [Mul R]


theorem sfl_push_rot_zero {std_id : StdChunkId R RI}
    {ial : List (CChunkId R RI × Nat)} {fch : R} {rot : Nat} {range : CRowRange RI}
    {is_s : Bool} {acc acc1 : List (StdChunkId R RI)}
    (h : sfl_push std_id ial fch rot range is_s acc = some acc1)
    (heq : (⟨fch, range.start, is_s⟩ : StdChunkId R RI) = std_id) : rot = 0 := by
  simp only [sfl_push] at h
  by_contra hrot
  rw [if_pos ⟨heq, hrot⟩] at h
  exact Option.noConfusion h

theorem sfl_push_mono {std_id : StdChunkId R RI}
    {ial : List (CChunkId R RI × Nat)} {fch : R} {rot : Nat} {range : CRowRange RI}
    {is_s : Bool} {acc acc1 : List (StdChunkId R RI)}
    (h : sfl_push std_id ial fch rot range is_s acc = some acc1) :
    ∀ x ∈ acc, x ∈ acc1 := by
  simp only [sfl_push] at h
  by_cases h1 : (⟨fch, range.start, is_s⟩ : StdChunkId R RI) = std_id ∧ rot ≠ 0
  · rw [if_pos h1] at h
    exact Option.noConfusion h
  · rw [if_neg h1] at h
    by_cases h2 : (CChunkId.standard ⟨fch, range.start, is_s⟩, range.len) ∈ ial
    · rw [if_pos h2] at h
      obtain rfl : acc ++ [⟨fch, range.start, is_s⟩] = acc1 := Option.some.inj h
      exact fun x hx => List.mem_append_left _ hx
    · rw [if_neg h2] at h
      obtain rfl : acc = acc1 := Option.some.inj h
      exact fun x hx => hx

theorem sfl_push_pushes {std_id : StdChunkId R RI}
    {ial : List (CChunkId R RI × Nat)} {fch : R} {rot : Nat} {range : CRowRange RI}
    {is_s : Bool} {acc acc1 : List (StdChunkId R RI)}
    (hin : (CChunkId.standard std_id, range.len) ∈ ial)
    (heq : (⟨fch, range.start, is_s⟩ : StdChunkId R RI) = std_id)
    (h : sfl_push std_id ial fch rot range is_s acc = some acc1) :
    std_id ∈ acc1 := by
  simp only [sfl_push] at h
  by_cases h1 : (⟨fch, range.start, is_s⟩ : StdChunkId R RI) = std_id ∧ rot ≠ 0
  · rw [if_pos h1] at h
    exact Option.noConfusion h
  · rw [if_neg h1] at h
    by_cases h2 : (CChunkId.standard ⟨fch, range.start, is_s⟩, range.len) ∈ ial
    · rw [if_pos h2] at h
      obtain rfl : acc ++ [⟨fch, range.start, is_s⟩] = acc1 := Option.some.inj h
      exact heq ▸ List.mem_append_right _ (List.mem_singleton_self _)
    · exact absurd (by rw [heq]; exact hin) h2

theorem sfl_entry_mono {std_id : StdChunkId R RI} {equivMap : R → Option (R × Nat)}
    {ial : List (CChunkId R RI × Nat)} {e : CRowRange RI × R}
    {acc acc1 : List (StdChunkId R RI)}
    (h : sfl_entry std_id equivMap ial e acc = some acc1) : ∀ x ∈ acc, x ∈ acc1 := by
  simp only [sfl_entry] at h
  split at h
  · obtain rfl : acc = acc1 := Option.some.inj h
    exact fun x hx => hx
  · obtain ⟨a1, h1, h2⟩ := Option.bind_eq_some.1 h
    exact fun x hx => sfl_push_mono h2 x (sfl_push_mono h1 x hx)

theorem sfl_entry_rot {std_id : StdChunkId R RI} {equivMap : R → Option (R × Nat)}
    {ial : List (CChunkId R RI × Nat)} {e : CRowRange RI × R}
    {acc acc1 : List (StdChunkId R RI)} {fr : R × Nat}
    (h : sfl_entry std_id equivMap ial e acc = some acc1)
    (hfr : equivMap (std_id.course_head * e.2) = some fr) (is_s : Bool)
    (heq : (⟨fr.1, e.1.start, is_s⟩ : StdChunkId R RI) = std_id) : fr.2 = 0 := by
  simp only [sfl_entry, hfr] at h
  obtain ⟨a1, h1, h2⟩ := Option.bind_eq_some.1 h
  cases is_s with
  | true => exact sfl_push_rot_zero h1 heq
  | false => exact sfl_push_rot_zero h2 heq

theorem sfl_entry_pushes_self {std_id : StdChunkId R RI}
    {equivMap : R → Option (R × Nat)} {ial : List (CChunkId R RI × Nat)} {t0 : R}
    {len : Nat} {acc acc1 : List (StdChunkId R RI)}
    (hmul : std_id.course_head * t0 = std_id.course_head)
    (hequiv : equivMap std_id.course_head = some (std_id.course_head, 0))
    (hin : (CChunkId.standard std_id, len) ∈ ial)
    (h : sfl_entry std_id equivMap ial (⟨std_id.row_idx, len⟩, t0) acc = some acc1) :
    std_id ∈ acc1 := by
  simp only [sfl_entry, hmul, hequiv] at h
  obtain ⟨a1, h1, h2⟩ := Option.bind_eq_some.1 h
  obtain ⟨ch, ri, st⟩ := std_id
  cases st with
  | true =>
    have hmem := sfl_push_pushes hin rfl h1
    exact sfl_push_mono h2 _ hmem
  | false =>
    exact sfl_push_pushes hin rfl h2

theorem sfl_fold_mono {std_id : StdChunkId R RI} {equivMap : R → Option (R × Nat)}
    {ial : List (CChunkId R RI × Nat)} :
    ∀ {l : List (CRowRange RI × R)} {acc r : List (StdChunkId R RI)},
      sfl_fold std_id equivMap ial l acc = some r → ∀ x ∈ acc, x ∈ r := by
  intro l
  induction l with
  | nil =>
    intro acc r h
    obtain rfl : acc = r := Option.some.inj h
    exact fun x hx => hx
  | cons e rest ih =>
    intro acc r h
    obtain ⟨a1, h1, h2⟩ := Option.bind_eq_some.1 h
    exact fun x hx => ih h2 x (sfl_entry_mono h1 x hx)

theorem sfl_fold_rot {std_id : StdChunkId R RI} {equivMap : R → Option (R × Nat)}
    {ial : List (CChunkId R RI × Nat)} :
    ∀ {l : List (CRowRange RI × R)} {acc r : List (StdChunkId R RI)},
      sfl_fold std_id equivMap ial l acc = some r →
      ∀ e ∈ l, ∀ fr, equivMap (std_id.course_head * e.2) = some fr →
        ∀ is_s : Bool, (⟨fr.1, e.1.start, is_s⟩ : StdChunkId R RI) = std_id →
          fr.2 = 0 := by
  intro l
  induction l with
  | nil => intro acc r h e he; exact absurd he (List.not_mem_nil e)
  | cons e0 rest ih =>
    intro acc r h e he fr hfr is_s heq
    obtain ⟨a1, h1, h2⟩ := Option.bind_eq_some.1 h
    rcases List.mem_cons.1 he with h3 | h3
    · subst h3
      exact sfl_entry_rot h1 hfr is_s heq
    · exact ih h2 e h3 fr hfr is_s heq

theorem sfl_fold_pushes_self {std_id : StdChunkId R RI}
    {equivMap : R → Option (R × Nat)} {ial : List (CChunkId R RI × Nat)} {t0 : R}
    {len : Nat}
    (hmul : std_id.course_head * t0 = std_id.course_head)
    (hequiv : equivMap std_id.course_head = some (std_id.course_head, 0))
    (hin : (CChunkId.standard std_id, len) ∈ ial) :
    ∀ {l : List (CRowRange RI × R)} {acc r : List (StdChunkId R RI)},
      sfl_fold std_id equivMap ial l acc = some r →
      ((⟨std_id.row_idx, len⟩, t0) : CRowRange RI × R) ∈ l →
      std_id ∈ r := by
  intro l
  induction l with
  | nil =>
    intro acc r _h hmem
    exact absurd hmem (List.not_mem_nil _)
  | cons e0 rest ih =>
    intro acc r h hmem
    obtain ⟨a1, h1, h2⟩ := Option.bind_eq_some.1 h
    rcases List.mem_cons.1 hmem with h3 | h3
    · rw [← h3] at h1
      exact sfl_fold_mono h2 _ (sfl_entry_pushes_self hmul hequiv hin h1)
    · exact ih h2 h3

/-- C3: in a graph built with allow_false = false, every surviving standard chunk has
a row range the falseness table does not mark SelfFalse, and its falseness does not
relate it to its own canonical id under a non-identity part-head rotation: every
table entry that resolves, through the course-head equivalence map, to the own id of the chunk has rotation 0. -/
theorem C3_self_false_removed (ids : List (CChunkId R RI)) (m : ChunkMap R RI E)
    (table : CRowRange RI → FalsenessEntry R RI) (equivMap : R → Option (R × Nat)) :
    ∀ id c, compute_falseness ids m table equivMap id = some c →
      ∀ std_id, id = CChunkId.standard std_id →
        table ⟨std_id.row_idx, c.per_part_length⟩ ≠ FalsenessEntry.selfFalse ∧
        (∀ fchs, table ⟨std_id.row_idx, c.per_part_length⟩ =
            FalsenessEntry.falseCourseHeads fchs →
          ∀ e ∈ fchs, ∀ fr, equivMap (std_id.course_head * e.2) = some fr →
            ∀ is_s : Bool, (⟨fr.1, e.1.start, is_s⟩ : StdChunkId R RI) = std_id →
              fr.2 = 0) := by
  intro id c hc std_id hid
  subst hid
  simp only [compute_falseness] at hc
  split at hc
  · exact Option.noConfusion hc
  next c0 hm =>
    split at hc
    next c1 heq =>
      obtain rfl : c = c1 := (Option.some.inj hc).symm
      simp only [set_falseness_links] at heq
      split at heq
      · exact absurd (congrArg Prod.fst heq) (by simp)
      next fchs0 htab0 =>
        split at heq
        next hfold => exact absurd (congrArg Prod.fst heq) (by simp)
        next fcs hfold =>
          have hcc : { c0 with false_chunks := fcs } = c := congrArg Prod.snd heq
          have hppl : c.per_part_length = c0.per_part_length := by
            rw [← hcc]
          constructor
          · rw [hppl, htab0]
            simp
          · intro fchs htab e he fr hfr is_s heqid
            rw [hppl, htab0] at htab
            obtain rfl : fchs0 = fchs := FalsenessEntry.falseCourseHeads.inj htab
            exact sfl_fold_rot hfold e he fr hfr is_s heqid
    next x heq => exact Option.noConfusion hc

/-- C4: a standard chunk surviving compute_falseness contains its own id in its
false_chunks list, given the (spec-modelled, falseness.rs is missing) facts that the
entry of the falseness table for the row range of the chunk relates the range to itself under a
transposition fixing its course head, and that the equivalence map sends a canonical
course head to itself with rotation 0. -/
theorem C4_self_membership (ids : List (CChunkId R RI)) (m : ChunkMap R RI E)
    (table : CRowRange RI → FalsenessEntry R RI) (equivMap : R → Option (R × Nat))
    (id : CChunkId R RI) (c : GChunk R RI E) (std_id : StdChunkId R RI)
    (fchs : List (CRowRange RI × R)) (t0 : R)
    (hid : id = CChunkId.standard std_id)
    (hids : id ∈ ids)
    (hc : compute_falseness ids m table equivMap id = some c)
    (htab : table ⟨std_id.row_idx, c.per_part_length⟩ =
      FalsenessEntry.falseCourseHeads fchs)
    (hself : ((⟨std_id.row_idx, c.per_part_length⟩, t0) : CRowRange RI × R) ∈ fchs)
    (hmul : std_id.course_head * t0 = std_id.course_head)
    (hequiv : equivMap std_id.course_head = some (std_id.course_head, 0)) :
    std_id ∈ c.false_chunks := by
  subst hid
  simp only [compute_falseness] at hc
  split at hc
  · exact Option.noConfusion hc
  next c0 hm =>
    split at hc
    next c1 heq =>
      obtain rfl : c = c1 := (Option.some.inj hc).symm
      simp only [set_falseness_links] at heq
      split at heq
      · exact absurd (congrArg Prod.fst heq) (by simp)
      next fchs0 htab0 =>
        split at heq
        next hfold => exact absurd (congrArg Prod.fst heq) (by simp)
        next fcs hfold =>
          have hcc : { c0 with false_chunks := fcs } = c := congrArg Prod.snd heq
          have hppl : c.per_part_length = c0.per_part_length := by
            rw [← hcc]
          have hfc : c.false_chunks = fcs := by
            rw [← hcc]
          rw [hppl, htab0] at htab
          obtain rfl : fchs0 = fchs := FalsenessEntry.falseCourseHeads.inj htab
          have hin : (CChunkId.standard std_id, c0.per_part_length) ∈
              chunk_ids_and_lengths ids m := by
            refine List.mem_filterMap.2 ⟨CChunkId.standard std_id, hids, ?_⟩
            rw [hm]
            rfl
          rw [hfc]
          refine sfl_fold_pushes_self hmul hequiv hin hfold ?_
          rw [← hppl]
          exact hself
    next x heq => exact Option.noConfusion hc

end FalsenessComputation

/-! ## Concrete witnesses for the graph claims (C2, C3, C4) -/

/-- A concrete standard chunk id (course head 0, row index 0, a start chunk). -/
def w_std : StdChunkId ℕ ℕ := ⟨0, 0, true⟩

/-- Its ChunkId. -/
def w_ida : CChunkId ℕ ℕ := CChunkId.standard w_std

/-- A second concrete chunk id. -/
def w_idb : CChunkId ℕ ℕ := CChunkId.standard ⟨1, 0, false⟩

/-- A chunk at w_ida with one successor link to w_idb of rotation 1. -/
def w_cha : GChunk ℕ ℕ Unit :=
  ⟨true, none, "", [⟨w_idb, 5, 1⟩], [], [], 2, 4, [], ⟨0, []⟩, false, 0, 0, false, 0, 0⟩

/-- A chunk at w_idb with no successors. -/
def w_chb : GChunk ℕ ℕ Unit :=
  ⟨false, none, "", [], [], [], 2, 4, [], ⟨0, []⟩, false, 0, 0, false, 0, 0⟩

/-- A two-chunk map for the C2 witness. -/
def w_m2 : ChunkMap ℕ ℕ Unit :=
  fun id => if id = w_ida then some w_cha else if id = w_idb then some w_chb else none

/-- The chunk at w_idb after the predecessor wiring of the concrete two-chunk map:
it has gained the reversed link of rotation 2 - 1 = 1. -/
def w_chb_wired : GChunk ℕ ℕ Unit :=
  { w_chb with predecessors := [⟨w_ida, 5, 1⟩] }

/-- C2 witness: in the wired two-chunk map with num_parts = 2, the successor link
of rotation 1 from w_ida to w_idb has its reverse link in the predecessors of the
chunk at w_idb. -/
theorem C2_witness :
    ∃ p ∈ w_chb_wired.predecessors, p.id = w_ida ∧
      p.source_idx = (⟨w_idb, 5, 1⟩ : GLink ℕ ℕ).source_idx ∧
      ((⟨w_idb, 5, 1⟩ : GLink ℕ ℕ).rotation + p.rotation) % 2 = 0 :=
  C2_predecessor_inverse 2 [w_ida, w_idb] w_m2
    (by
      intro id h
      unfold w_m2 at h
      split_ifs at h with h1 h2
      · rw [h1]
        exact List.mem_cons_self _ _
      · rw [h2]
        exact List.mem_cons_of_mem _ (List.mem_cons_self _ _)
      · exact absurd h (by simp))
    (by
      intro id c hc l hl
      unfold w_m2 at hc
      split_ifs at hc with h1 h2
      · obtain rfl : w_cha = c := Option.some.inj hc
        simp only [w_cha, List.mem_singleton] at hl
        rw [hl]
        decide
      · obtain rfl : w_chb = c := Option.some.inj hc
        simp [w_chb] at hl)
    w_ida w_cha (by decide) ⟨w_idb, 5, 1⟩ (by decide) w_chb_wired (by decide)

/-- A falseness table with no false course heads anywhere. -/
def w_table : CRowRange ℕ → FalsenessEntry ℕ ℕ :=
  fun _ => FalsenessEntry.falseCourseHeads []

/-- A course-head equivalence map fixing course head 0. -/
def w_equiv : ℕ → Option (ℕ × Nat) := fun r => if r = 0 then some (0, 0) else none

/-- A one-chunk map for the C3 witness. -/
def w_m3 : ChunkMap ℕ ℕ Unit := fun id => if id = w_ida then some w_cha else none

/-- C3 witness: the chunk surviving the concrete falseness computation is neither
SelfFalse nor false against itself in another part. -/
theorem C3_witness :
    w_table ⟨w_std.row_idx, w_cha.per_part_length⟩ ≠ FalsenessEntry.selfFalse ∧
    (∀ fchs, w_table ⟨w_std.row_idx, w_cha.per_part_length⟩ =
        FalsenessEntry.falseCourseHeads fchs →
      ∀ e ∈ fchs, ∀ fr, w_equiv (w_std.course_head * e.2) = some fr →
        ∀ is_s : Bool, (⟨fr.1, e.1.start, is_s⟩ : StdChunkId ℕ ℕ) = w_std →
          fr.2 = 0) :=
  C3_self_false_removed [w_ida] w_m3 w_table w_equiv w_ida w_cha (by decide) w_std rfl

/-- A concrete standard chunk id for the C4 witness. -/
def w4_std : StdChunkId ℕ ℕ := ⟨2, 3, true⟩

/-- Its ChunkId. -/
def w4_id : CChunkId ℕ ℕ := CChunkId.standard w4_std

/-- A chunk of per-part length 6 at w4_id. -/
def w4_chunk : GChunk ℕ ℕ Unit :=
  ⟨true, none, "", [], [], [], 6, 6, [], ⟨0, []⟩, false, 0, 0, false, 0, 0⟩

/-- A table whose entry for the row range of the chunk relates the range to itself under
the transposition 1 (which fixes course head 2 under ℕ multiplication). -/
def w4_table : CRowRange ℕ → FalsenessEntry ℕ ℕ :=
  fun rr => if rr = ⟨3, 6⟩ then FalsenessEntry.falseCourseHeads [(⟨3, 6⟩, 1)]
    else FalsenessEntry.falseCourseHeads []

/-- An equivalence map fixing course head 2 with rotation 0. -/
def w4_equiv : ℕ → Option (ℕ × Nat) := fun r => if r = 2 then some (2, 0) else none

/-- A one-chunk map for the C4 witness. -/
def w4_m : ChunkMap ℕ ℕ Unit := fun id => if id = w4_id then some w4_chunk else none

/-- C4 witness: the concrete surviving chunk contains its own id in false_chunks. -/
theorem C4_witness :
    w4_std ∈ ({ w4_chunk with false_chunks := [w4_std] } : GChunk ℕ ℕ Unit).false_chunks :=
  C4_self_membership [w4_id] w4_m w4_table w4_equiv w4_id
    { w4_chunk with false_chunks := [w4_std] } w4_std [(⟨3, 6⟩, 1)] 1
    rfl (List.mem_cons_self _ _) (by decide) (by decide)
    (by decide) (by decide) (by decide)
